import Mathlib

/-!
Verification of the core algorithms of the `particles` repository.

The development shallowly embeds the Rust source:
* the polynomial interpolation engine (`poly3.rs` / `poly7.rs`) over `ℚ`
  (exact arithmetic in place of `f32`; a division by a zero pivot — which in
  `f32` produces `Inf`/`NaN` that the constructor's finiteness scan catches —
  is recorded in an `ok` flag, and `from_points` returns `none` exactly when
  the flag is false, mirroring the scan);
* the grid / cursor editing engine (`grid.rs` / `cursor.rs`) and the camera
  orbit repositioning (`camera.rs`) over `ℝ`, with `Real.sqrt` for the
  Euclidean magnitudes computed by `cgmath`.
-/

namespace Particles

/-! ## Polynomial engine (`poly3.rs`, `poly7.rs`)

State of the Gauss–Jordan elimination: the working copy `m` of the input
matrix, the accumulator `res` (initialized to the identity, becoming the
inverse), and the `ok` flag recording that no division by zero occurred. -/

structure ElimState (n : ℕ) where
  m : Matrix (Fin n) (Fin n) ℚ
  res : Matrix (Fin n) (Fin n) ℚ
  ok : Bool

variable {n : ℕ}

/-- `matrix_row_mul_add` from the source: `row dst += mul * row src`
(`from`/`into` in the Rust code; `from` is a Lean keyword). -/
def matrix_row_mul_add (mul : ℚ) (m : Matrix (Fin n) (Fin n) ℚ) (src dst : Fin n) :
    Matrix (Fin n) (Fin n) ℚ :=
  m.updateRow dst fun c => m dst c + mul * m src c

/-- `matrix_row_div` from the source: `row /= d`. -/
def matrix_row_div (d : ℚ) (m : Matrix (Fin n) (Fin n) ℚ) (row : Fin n) :
    Matrix (Fin n) (Fin n) ℚ :=
  m.updateRow row fun c => m row c / d

/-- One elimination step of `inverse`: `pivot = -m[j][i]/m[i][i]`, then
`matrix_row_mul_add(pivot, m, i, j)` and `matrix_row_mul_add(pivot, res, i, j)`.
The `ok` flag records that the divisor `m[i][i]` is nonzero (in `f32` a zero
divisor yields non-finite values caught by the scan in `from_points`). -/
def rowOpStep (i j : Fin n) (s : ElimState n) : ElimState n :=
  let pivot := -(s.m j i) / s.m i i
  { m := matrix_row_mul_add pivot s.m i j
    res := matrix_row_mul_add pivot s.res i j
    ok := s.ok && decide (s.m i i ≠ 0) }

/-- The row-normalization of `inverse`: `div = m[i][i]`, divide row `i` of both
matrices by `div`. -/
def divStep (i : Fin n) (s : ElimState n) : ElimState n :=
  { m := matrix_row_div (s.m i i) s.m i
    res := matrix_row_div (s.m i i) s.res i
    ok := s.ok && decide (s.m i i ≠ 0) }

/-- The inner loop `for j in (i + 1)..N` of `inverse` (forward phase);
`cnt` is the remaining iteration count, `j` the current row. -/
def belowLoop (i : Fin n) : ℕ → ℕ → ElimState n → ElimState n
  | 0, _, s => s
  | cnt + 1, j, s =>
    if h : j < n then belowLoop i cnt (j + 1) (rowOpStep i ⟨j, h⟩ s) else s

/-- One iteration of the outer forward loop of `inverse`: eliminate below
pivot `i`, then normalize row `i`. -/
def forwardPivot (i : Fin n) (s : ElimState n) : ElimState n :=
  divStep i (belowLoop i (n - (i + 1)) (i + 1) s)

/-- The outer loop `for i in 0..N` of `inverse` (forward phase). -/
def fwdLoop : ℕ → ℕ → ElimState n → ElimState n
  | 0, _, s => s
  | cnt + 1, i, s =>
    if h : i < n then fwdLoop cnt (i + 1) (forwardPivot ⟨i, h⟩ s) else s

/-- The inner loop `for j in (0..i).rev()` of `inverse` (backward phase):
the argument counts down, processing rows `c-1, c-2, …, 0`. -/
def abovLoop (i : Fin n) : ℕ → ElimState n → ElimState n
  | 0, s => s
  | j + 1, s =>
    if h : j < n then abovLoop i j (rowOpStep i ⟨j, h⟩ s) else abovLoop i j s

/-- One iteration of the outer backward loop of `inverse`. -/
def backPivot (i : Fin n) (s : ElimState n) : ElimState n :=
  abovLoop i i.val s

/-- The outer loop `for i in (0..N).rev()` of `inverse` (backward phase). -/
def backLoop : ℕ → ElimState n → ElimState n
  | 0, s => s
  | i + 1, s => if h : i < n then backLoop i (backPivot ⟨i, h⟩ s) else backLoop i s

/-- `inverse` from the source: forward elimination, row normalization, then
back-substitution, starting from the identity accumulator. -/
def gaussJordan (m0 : Matrix (Fin n) (Fin n) ℚ) : ElimState n :=
  backLoop n (fwdLoop n 0 { m := m0, res := 1, ok := true })

/-- `multiply_vector` from the source: `res[row] = Σ_i m[row][i] * v[i]`. -/
def multiply_vector (m : Matrix (Fin n) (Fin n) ℚ) (v : Fin n → ℚ) : Fin n → ℚ :=
  m.mulVec v

/-- Common body of `Poly3::from_points` / `Poly7::from_points`: build the
Vandermonde matrix `M[i][j] = x_i^j`, invert it, and multiply by the
y-coordinates.  The `f32` code scans the computed inverse for non-finite
entries and returns `None` if any is found; in the exact model this is the
`ok` flag (false exactly when a division by zero happened). -/
def fromPoints (pts : Fin n → ℚ × ℚ) : Option (Fin n → ℚ) :=
  let vm : Matrix (Fin n) (Fin n) ℚ := Matrix.of fun i j => (pts i).1 ^ (j : ℕ)
  let s := gaussJordan vm
  if s.ok then some (multiply_vector s.res fun i => (pts i).2) else none

/-- `Poly3` from `poly3.rs`: coefficients of `a·x³ + b·x² + c·x + d`. -/
structure Poly3 where
  a : ℚ
  b : ℚ
  c : ℚ
  d : ℚ

/-- `Poly3::eval`. -/
def Poly3.eval (p : Poly3) (x : ℚ) : ℚ :=
  let x2 := x * x
  let x3 := x2 * x
  p.a * x3 + p.b * x2 + p.c * x + p.d

/-- `Poly3::from_points`: the row `[1, x, x*x, x*x*x]` is `x^j`, and
`[d, c, b, a] = multiply_vector(&inv, &ys)`. -/
def Poly3.from_points (pts : Fin 4 → ℚ × ℚ) : Option Poly3 :=
  (fromPoints pts).map fun cs => { a := cs 3, b := cs 2, c := cs 1, d := cs 0 }

/-- `Poly7` from `poly7.rs`: eight coefficients, index `i` for `x^i`. -/
structure Poly7 where
  coeffs : Fin 8 → ℚ

/-- The coefficients in iteration order of `self.coeffs.iter()`. -/
def Poly7.coeffList (p : Poly7) : List ℚ :=
  [p.coeffs 0, p.coeffs 1, p.coeffs 2, p.coeffs 3,
   p.coeffs 4, p.coeffs 5, p.coeffs 6, p.coeffs 7]

/-- `Poly7::eval`: `res += x_to_the_i * c; x_to_the_i *= x` over the
coefficients in order. -/
def Poly7.eval (p : Poly7) (x : ℚ) : ℚ :=
  (p.coeffList.foldl (fun acc c => (acc.1 + acc.2 * c, acc.2 * x)) ((0 : ℚ), (1 : ℚ))).1

/-- `Poly7::from_points`. -/
def Poly7.from_points (pts : Fin 8 → ℚ × ℚ) : Option Poly7 :=
  (fromPoints pts).map fun cs => { coeffs := cs }

/-! ### Row operations are left multiplications -/

theorem matrix_row_mul_add_mul (c : ℚ) (A B : Matrix (Fin n) (Fin n) ℚ) (src dst : Fin n) :
    matrix_row_mul_add c A src dst * B = matrix_row_mul_add c (A * B) src dst := by
  ext i k
  simp only [Matrix.mul_apply, matrix_row_mul_add, Matrix.updateRow_apply]
  by_cases h : i = dst
  · simp only [h, if_pos rfl, if_true, Matrix.mul_apply]
    rw [Finset.mul_sum, ← Finset.sum_add_distrib]
    exact Finset.sum_congr rfl fun x _ => by ring
  · simp [h, Matrix.mul_apply]

theorem matrix_row_div_mul (d : ℚ) (A B : Matrix (Fin n) (Fin n) ℚ) (r : Fin n) :
    matrix_row_div d A r * B = matrix_row_div d (A * B) r := by
  ext i k
  simp only [Matrix.mul_apply, matrix_row_div, Matrix.updateRow_apply]
  by_cases h : i = r
  · simp only [h, if_pos rfl, if_true, div_eq_mul_inv, Matrix.mul_apply, Finset.sum_mul]
    exact Finset.sum_congr rfl fun x _ => by ring
  · simp [h, Matrix.mul_apply]

/-- The elimination invariant: the accumulator times the original matrix equals
the working matrix. -/
def StateInv (m0 : Matrix (Fin n) (Fin n) ℚ) (s : ElimState n) : Prop :=
  s.res * m0 = s.m

theorem rowOpStep_stateInv {m0 : Matrix (Fin n) (Fin n) ℚ} {s : ElimState n}
    (h : StateInv m0 s) (i j : Fin n) : StateInv m0 (rowOpStep i j s) := by
  unfold StateInv rowOpStep at *
  simp only [matrix_row_mul_add_mul, h]

theorem divStep_stateInv {m0 : Matrix (Fin n) (Fin n) ℚ} {s : ElimState n}
    (h : StateInv m0 s) (i : Fin n) : StateInv m0 (divStep i s) := by
  unfold StateInv divStep at *
  simp only [matrix_row_div_mul, h]

theorem belowLoop_stateInv {m0 : Matrix (Fin n) (Fin n) ℚ} (i : Fin n) :
    ∀ (cnt j : ℕ) (s : ElimState n), StateInv m0 s → StateInv m0 (belowLoop i cnt j s) := by
  intro cnt
  induction cnt with
  | zero => intro j s h; exact h
  | succ cnt ih =>
    intro j s h
    unfold belowLoop
    split
    · exact ih (j + 1) _ (rowOpStep_stateInv h i _)
    · exact h

theorem fwdLoop_stateInv {m0 : Matrix (Fin n) (Fin n) ℚ} :
    ∀ (cnt i : ℕ) (s : ElimState n), StateInv m0 s → StateInv m0 (fwdLoop cnt i s) := by
  intro cnt
  induction cnt with
  | zero => intro i s h; exact h
  | succ cnt ih =>
    intro i s h
    unfold fwdLoop
    split
    · exact ih (i + 1) _ (divStep_stateInv (belowLoop_stateInv _ _ _ _ h) _)
    · exact h

theorem abovLoop_stateInv {m0 : Matrix (Fin n) (Fin n) ℚ} (i : Fin n) :
    ∀ (c : ℕ) (s : ElimState n), StateInv m0 s → StateInv m0 (abovLoop i c s) := by
  intro c
  induction c with
  | zero => intro s h; exact h
  | succ c ih =>
    intro s h
    unfold abovLoop
    split
    · exact ih _ (rowOpStep_stateInv h i _)
    · exact ih _ h

theorem backLoop_stateInv {m0 : Matrix (Fin n) (Fin n) ℚ} :
    ∀ (cn : ℕ) (s : ElimState n), StateInv m0 s → StateInv m0 (backLoop cn s) := by
  intro cn
  induction cn with
  | zero => intro s h; exact h
  | succ cn ih =>
    intro s h
    unfold backLoop
    split
    · exact ih _ (abovLoop_stateInv _ _ _ h)
    · exact ih _ h

theorem gaussJordan_stateInv (m0 : Matrix (Fin n) (Fin n) ℚ) :
    (gaussJordan m0).res * m0 = (gaussJordan m0).m := by
  have h0 : StateInv m0 ({ m := m0, res := 1, ok := true } : ElimState n) := by
    unfold StateInv; simp
  exact backLoop_stateInv n _ (fwdLoop_stateInv n 0 _ h0)

/-! ### The `ok` flag only ever decreases -/

theorem rowOpStep_ok_mono {i j : Fin n} {s : ElimState n}
    (h : (rowOpStep i j s).ok = true) : s.ok = true := by
  simp only [rowOpStep, Bool.and_eq_true] at h
  exact h.1

theorem divStep_ok_mono {i : Fin n} {s : ElimState n}
    (h : (divStep i s).ok = true) : s.ok = true := by
  simp only [divStep, Bool.and_eq_true] at h
  exact h.1

theorem belowLoop_ok_mono (i : Fin n) :
    ∀ (cnt j : ℕ) (s : ElimState n), (belowLoop i cnt j s).ok = true → s.ok = true := by
  intro cnt
  induction cnt with
  | zero => intro j s h; exact h
  | succ cnt ih =>
    intro j s h
    unfold belowLoop at h
    by_cases hj : j < n
    · rw [dif_pos hj] at h
      exact rowOpStep_ok_mono (ih _ _ h)
    · rwa [dif_neg hj] at h

theorem abovLoop_ok_mono (i : Fin n) :
    ∀ (c : ℕ) (s : ElimState n), (abovLoop i c s).ok = true → s.ok = true := by
  intro c
  induction c with
  | zero => intro s h; exact h
  | succ c ih =>
    intro s h
    unfold abovLoop at h
    by_cases hj : c < n
    · rw [dif_pos hj] at h
      exact rowOpStep_ok_mono (ih _ h)
    · rw [dif_neg hj] at h
      exact ih _ h

theorem backLoop_ok_mono :
    ∀ (cn : ℕ) (s : ElimState n), (backLoop cn s).ok = true → s.ok = true := by
  intro cn
  induction cn with
  | zero => intro s h; exact h
  | succ cn ih =>
    intro s h
    unfold backLoop at h
    by_cases hj : cn < n
    · rw [dif_pos hj] at h
      exact abovLoop_ok_mono _ _ _ (ih _ h)
    · rw [dif_neg hj] at h
      exact ih _ h

/-! ### Leading principal blocks -/

/-- The leading `k × k` block of a matrix. -/
def lead {k : ℕ} (hk : k ≤ n) (m : Matrix (Fin n) (Fin n) ℚ) : Matrix (Fin k) (Fin k) ℚ :=
  m.submatrix (Fin.castLE hk) (Fin.castLE hk)

theorem lead_rowMulAdd_high {k : ℕ} (hk : k ≤ n) (c : ℚ) (A : Matrix (Fin n) (Fin n) ℚ)
    (src dst : Fin n) (hdst : k ≤ (dst : ℕ)) :
    lead hk (matrix_row_mul_add c A src dst) = lead hk A := by
  funext r cc
  have hne : Fin.castLE hk r ≠ dst := by
    intro h
    have := congrArg Fin.val h
    simp only [Fin.coe_castLE] at this
    omega
  simp [lead, matrix_row_mul_add, Matrix.updateRow_ne hne]

theorem lead_rowMulAdd_det {k : ℕ} (hk : k ≤ n) (c : ℚ) (A : Matrix (Fin n) (Fin n) ℚ)
    (src dst : Fin n) (hs : (src : ℕ) < k) (hd : (dst : ℕ) < k) (hne : src ≠ dst) :
    (lead hk (matrix_row_mul_add c A src dst)).det = (lead hk A).det := by
  have hcast_d : Fin.castLE hk ⟨(dst : ℕ), hd⟩ = dst := by ext; simp
  have hcast_s : Fin.castLE hk ⟨(src : ℕ), hs⟩ = src := by ext; simp
  have hrw : lead hk (matrix_row_mul_add c A src dst)
      = (lead hk A).updateRow ⟨(dst : ℕ), hd⟩
          ((lead hk A) ⟨(dst : ℕ), hd⟩ + c • (lead hk A) ⟨(src : ℕ), hs⟩) := by
    funext r cc
    by_cases h : r = ⟨(dst : ℕ), hd⟩
    · subst h
      rw [Matrix.updateRow_self]
      simp only [lead, matrix_row_mul_add, Matrix.submatrix_apply, hcast_d,
        Matrix.updateRow_self, Pi.add_apply, Pi.smul_apply, smul_eq_mul, hcast_s]
    · have hne2 : Fin.castLE hk r ≠ dst := by
        intro hc
        apply h
        ext
        have := congrArg Fin.val hc
        simpa using this
      rw [Matrix.updateRow_ne h]
      simp [lead, matrix_row_mul_add, Matrix.updateRow_ne hne2]
  have hij : (⟨(dst : ℕ), hd⟩ : Fin k) ≠ ⟨(src : ℕ), hs⟩ := fun hc =>
    hne (Fin.ext (congrArg Fin.val hc).symm)
  rw [hrw]
  exact Matrix.det_updateRow_add_smul_self _ hij c

theorem lead_rowDiv_high {k : ℕ} (hk : k ≤ n) (d : ℚ) (A : Matrix (Fin n) (Fin n) ℚ)
    (row : Fin n) (hr : k ≤ (row : ℕ)) :
    lead hk (matrix_row_div d A row) = lead hk A := by
  funext r cc
  have hne : Fin.castLE hk r ≠ row := by
    intro h
    have := congrArg Fin.val h
    simp only [Fin.coe_castLE] at this
    omega
  simp [lead, matrix_row_div, Matrix.updateRow_ne hne]

theorem lead_rowDiv_det {k : ℕ} (hk : k ≤ n) (d : ℚ) (A : Matrix (Fin n) (Fin n) ℚ)
    (row : Fin n) (hr : (row : ℕ) < k) :
    (lead hk (matrix_row_div d A row)).det = d⁻¹ * (lead hk A).det := by
  have hcast : Fin.castLE hk ⟨(row : ℕ), hr⟩ = row := by ext; simp
  have hrw : lead hk (matrix_row_div d A row)
      = (lead hk A).updateRow ⟨(row : ℕ), hr⟩ (d⁻¹ • (lead hk A) ⟨(row : ℕ), hr⟩) := by
    funext r cc
    by_cases h : r = ⟨(row : ℕ), hr⟩
    · subst h
      rw [Matrix.updateRow_self]
      simp only [lead, matrix_row_div, Matrix.submatrix_apply, hcast, Matrix.updateRow_self,
        Pi.smul_apply, smul_eq_mul]
      rw [div_eq_mul_inv, mul_comm]
    · have hne2 : Fin.castLE hk r ≠ row := by
        intro hc
        apply h
        ext
        have := congrArg Fin.val hc
        simpa using this
      rw [Matrix.updateRow_ne h]
      simp [lead, matrix_row_div, Matrix.updateRow_ne hne2]
  rw [hrw, Matrix.det_updateRow_smul, Matrix.updateRow_eq_self]

/-! ### Effect of a single elimination step on rows -/

theorem rowOpStep_m_ne {i j : Fin n} (s : ElimState n) {r : Fin n} (h : r ≠ j) :
    (rowOpStep i j s).m r = s.m r := by
  simp [rowOpStep, matrix_row_mul_add, Matrix.updateRow_ne h]

theorem rowOpStep_res_ne {i j : Fin n} (s : ElimState n) {r : Fin n} (h : r ≠ j) :
    (rowOpStep i j s).res r = s.res r := by
  simp [rowOpStep, matrix_row_mul_add, Matrix.updateRow_ne h]

theorem rowOpStep_m_self (i j : Fin n) (s : ElimState n) (c : Fin n) :
    (rowOpStep i j s).m j c = s.m j c + -(s.m j i) / s.m i i * s.m i c := by
  simp [rowOpStep, matrix_row_mul_add, Matrix.updateRow_self]

/-- Full specification of the forward inner loop, assuming a nonzero pivot:
rows before `j` are untouched, column `i` is zeroed in rows `≥ j`, zeros left
of column `i` are preserved, `ok` is unchanged, and every leading principal
minor of the working matrix is unchanged. -/
theorem belowLoop_spec (i : Fin n) :
    ∀ (cnt j : ℕ) (s : ElimState n), j + cnt = n → (i : ℕ) < j → s.m i i ≠ 0 →
    (∀ r c : Fin n, (c : ℕ) < (i : ℕ) → (c : ℕ) < (r : ℕ) → s.m r c = 0) →
    (∀ r : Fin n, (r : ℕ) < j →
        (belowLoop i cnt j s).m r = s.m r ∧ (belowLoop i cnt j s).res r = s.res r) ∧
    (∀ r : Fin n, j ≤ (r : ℕ) → (belowLoop i cnt j s).m r i = 0) ∧
    (∀ r c : Fin n, (c : ℕ) < (i : ℕ) → (c : ℕ) < (r : ℕ) → (belowLoop i cnt j s).m r c = 0) ∧
    (belowLoop i cnt j s).ok = s.ok ∧
    (∀ (k : ℕ) (hk : k ≤ n), (lead hk (belowLoop i cnt j s).m).det = (lead hk s.m).det) := by
  intro cnt
  induction cnt with
  | zero =>
    intro j s hjn hij hd zb
    refine ⟨fun r _ => ⟨rfl, rfl⟩, fun r hr => absurd r.isLt (by omega), zb, rfl,
      fun k hk => rfl⟩
  | succ cnt ih =>
    intro j s hjn hij hd zb
    have hj : j < n := by omega
    unfold belowLoop
    rw [dif_pos hj]
    set jf : Fin n := ⟨j, hj⟩ with hjf
    set s' := rowOpStep i jf s with hs'
    have hij_ne : i ≠ jf := by
      intro h
      have := congrArg Fin.val h
      simp only [hjf] at this
      omega
    have f1m : ∀ r : Fin n, r ≠ jf → s'.m r = s.m r := fun r hr => rowOpStep_m_ne s hr
    have f1r : ∀ r : Fin n, r ≠ jf → s'.res r = s.res r := fun r hr => rowOpStep_res_ne s hr
    have f2 : s'.m i i = s.m i i := by rw [f1m i hij_ne]
    have f3 : s'.m jf i = 0 := by
      rw [hs', rowOpStep_m_self]
      rw [neg_div, neg_mul, div_mul_cancel₀ _ hd, add_neg_cancel]
    have f4 : ∀ r c : Fin n, (c : ℕ) < (i : ℕ) → (c : ℕ) < (r : ℕ) → s'.m r c = 0 := by
      intro r c hci hcr
      by_cases hrj : r = jf
      · subst hrj
        rw [hs', rowOpStep_m_self, zb _ _ hci hcr, zb i c hci hci, mul_zero, add_zero]
      · rw [f1m r hrj]
        exact zb r c hci hcr
    have hd' : s'.m i i ≠ 0 := by rw [f2]; exact hd
    obtain ⟨Q1, Q2, Q3, Q4, Q5⟩ := ih (j + 1) s' (by omega) (by omega) hd' f4
    have okstep : s'.ok = s.ok := by
      simp [hs', rowOpStep, hd]
    refine ⟨?_, ?_, Q3, Q4.trans okstep, ?_⟩
    · intro r hr
      have hrne : r ≠ jf := by
        intro h
        have := congrArg Fin.val h
        simp only [hjf] at this
        omega
      exact ⟨((Q1 r (by omega)).1).trans (f1m r hrne), ((Q1 r (by omega)).2).trans (f1r r hrne)⟩
    · intro r hr
      by_cases hrj : (r : ℕ) = j
      · have hrjf : r = jf := Fin.ext hrj
        rw [hrjf, (Q1 jf (by simp only [hjf, Fin.val_mk]; omega)).1]
        exact f3
      · exact Q2 r (by omega)
    · intro k hk
      refine (Q5 k hk).trans ?_
      by_cases hkj : k ≤ j
      · have : lead hk s'.m = lead hk s.m := by
          rw [hs']
          show lead hk (rowOpStep i jf s).m = lead hk s.m
          simp only [rowOpStep]
          exact lead_rowMulAdd_high hk _ s.m i jf (by simp [hjf]; omega)
        rw [this]
      · rw [hs']
        show (lead hk (rowOpStep i jf s).m).det = (lead hk s.m).det
        simp only [rowOpStep]
        exact lead_rowMulAdd_det hk _ s.m i jf (by omega) (by simp [hjf]; omega) hij_ne

/-- Frame lemma for the forward inner loop, without any pivot assumption:
rows before `j` (in particular row `i`) are never modified. -/
theorem belowLoop_frame (i : Fin n) :
    ∀ (cnt j : ℕ) (s : ElimState n),
    (∀ r : Fin n, (r : ℕ) < j → (belowLoop i cnt j s).m r = s.m r) := by
  intro cnt
  induction cnt with
  | zero => intro j s r _; rfl
  | succ cnt ih =>
    intro j s r hr
    unfold belowLoop
    by_cases hj : j < n
    · rw [dif_pos hj]
      have hrne : r ≠ (⟨j, hj⟩ : Fin n) := by
        intro h
        have := congrArg Fin.val h
        simp only at this
        omega
      exact (ih (j + 1) _ r (by omega)).trans (rowOpStep_m_ne s hrne)
    · rw [dif_neg hj]

/-! ### Forward phase: shape and minors -/

/-- Shape invariant after processing the first `k` pivot columns of the
forward phase: zeros below the diagonal in the first `k` columns, and unit
diagonal in the first `k` rows. -/
def UpperUni (k : ℕ) (m : Matrix (Fin n) (Fin n) ℚ) : Prop :=
  (∀ r c : Fin n, (c : ℕ) < k → (c : ℕ) < (r : ℕ) → m r c = 0) ∧
  (∀ r : Fin n, (r : ℕ) < k → m r r = 1)

theorem det_lead_of_upperUni {m : Matrix (Fin n) (Fin n) ℚ} {i : Fin n}
    (hU : UpperUni (i : ℕ) m) (h1 : (i : ℕ) + 1 ≤ n) :
    (lead h1 m).det = m i i := by
  have htri : (lead h1 m).BlockTriangular id := by
    intro a b hab
    have hb : (b : ℕ) < (a : ℕ) := hab
    have ha : (a : ℕ) < (i : ℕ) + 1 := a.isLt
    show m (Fin.castLE h1 a) (Fin.castLE h1 b) = 0
    exact hU.1 _ _ (by simp only [Fin.coe_castLE]; omega)
      (by simp only [Fin.coe_castLE]; omega)
  rw [Matrix.det_of_upperTriangular htri, Fin.prod_univ_castSucc]
  have h2 : ∀ r : Fin (i : ℕ), (lead h1 m) r.castSucc r.castSucc = 1 := by
    intro r
    show m (Fin.castLE h1 r.castSucc) (Fin.castLE h1 r.castSucc) = 1
    exact hU.2 _ (by simp only [Fin.coe_castLE, Fin.coe_castSucc]; exact r.isLt)
  rw [Finset.prod_congr rfl fun r _ => h2 r, Finset.prod_const_one, one_mul]
  show m (Fin.castLE h1 (Fin.last _)) (Fin.castLE h1 (Fin.last _)) = m i i
  have hlast : Fin.castLE h1 (Fin.last (i : ℕ)) = i := by
    ext
    simp [Fin.last]
  rw [hlast]

theorem divStep_m_ne (i : Fin n) (s : ElimState n) {r : Fin n} (h : r ≠ i) :
    (divStep i s).m r = s.m r := by
  simp [divStep, matrix_row_div, Matrix.updateRow_ne h]

theorem divStep_m_self (i : Fin n) (s : ElimState n) (c : Fin n) :
    (divStep i s).m i c = s.m i c / s.m i i := by
  simp [divStep, matrix_row_div, Matrix.updateRow_self]

/-- One forward pivot preserves the shape invariant (extended one column), the
nonvanishing of all leading principal minors, and the `ok` flag, provided all
leading minors of the current working matrix are nonzero. -/
theorem forwardPivot_spec (i : Fin n) (s : ElimState n)
    (hU : UpperUni (i : ℕ) s.m)
    (hMI : ∀ (k : ℕ) (hk : k ≤ n), (lead hk s.m).det ≠ 0) :
    UpperUni ((i : ℕ) + 1) (forwardPivot i s).m ∧
    (∀ (k : ℕ) (hk : k ≤ n), (lead hk (forwardPivot i s).m).det ≠ 0) ∧
    (forwardPivot i s).ok = s.ok := by
  have h1 : (i : ℕ) + 1 ≤ n := i.isLt
  have hd : s.m i i ≠ 0 := by
    intro h0
    exact hMI _ h1 (by rw [det_lead_of_upperUni hU h1, h0])
  obtain ⟨P1, P2, P3, P4, P5⟩ :=
    belowLoop_spec i (n - ((i : ℕ) + 1)) ((i : ℕ) + 1) s (by omega) (by omega) hd hU.1
  set s1 := belowLoop i (n - ((i : ℕ) + 1)) ((i : ℕ) + 1) s with hs1
  have hfp : forwardPivot i s = divStep i s1 := rfl
  have hd1 : s1.m i i ≠ 0 := by
    rw [(P1 i (by omega)).1]
    exact hd
  rw [hfp]
  refine ⟨⟨?_, ?_⟩, ?_, ?_⟩
  · -- zeros below the diagonal in columns < i + 1
    intro r c hc hcr
    by_cases hri : r = i
    · subst hri
      rw [divStep_m_self, P3 r c (by omega) hcr, zero_div]
    · rw [divStep_m_ne i s1 hri]
      by_cases hci : (c : ℕ) < (i : ℕ)
      · exact P3 r c hci hcr
      · have hceq : (c : ℕ) = (i : ℕ) := by omega
        have : c = i := Fin.ext hceq
        subst this
        exact P2 r (by omega)
  · -- unit diagonal in rows < i + 1
    intro r hr
    by_cases hri : r = i
    · subst hri
      rw [divStep_m_self]
      exact div_self hd1
    · have hrlt : (r : ℕ) < (i : ℕ) := by
        rcases Nat.lt_or_ge (r : ℕ) (i : ℕ) with h | h
        · exact h
        · exact absurd (Fin.ext (by omega : (r : ℕ) = (i : ℕ))) hri
      rw [divStep_m_ne i s1 hri, (P1 r (by omega)).1]
      exact hU.2 r hrlt
  · -- all leading principal minors stay nonzero
    intro k hk
    by_cases hki : k ≤ (i : ℕ)
    · have heq : lead hk (divStep i s1).m = lead hk s1.m := by
        show lead hk (matrix_row_div (s1.m i i) s1.m i) = lead hk s1.m
        exact lead_rowDiv_high hk _ s1.m i hki
      rw [heq, P5 k hk]
      exact hMI k hk
    · have hdet : (lead hk (divStep i s1).m).det = (s1.m i i)⁻¹ * (lead hk s1.m).det := by
        show (lead hk (matrix_row_div (s1.m i i) s1.m i)).det = _
        exact lead_rowDiv_det hk _ s1.m i (by omega)
      rw [hdet, P5 k hk]
      exact mul_ne_zero (inv_ne_zero hd1) (hMI k hk)
  · -- ok is unchanged
    show (s1.ok && decide (s1.m i i ≠ 0)) = s.ok
    rw [P4]
    simp [hd1]

theorem forwardPivot_ok_mono {i : Fin n} {s : ElimState n}
    (h : (forwardPivot i s).ok = true) : s.ok = true :=
  belowLoop_ok_mono i _ _ _ (divStep_ok_mono h)

/-- One forward pivot, driven only by the `ok` flag: if the step reports
success then the pivot was nonzero and the shape invariant advances. -/
theorem forwardPivot_shape (i : Fin n) (s : ElimState n)
    (hU : UpperUni (i : ℕ) s.m) (hok : (forwardPivot i s).ok = true) :
    UpperUni ((i : ℕ) + 1) (forwardPivot i s).m := by
  set s1 := belowLoop i (n - ((i : ℕ) + 1)) ((i : ℕ) + 1) s with hs1
  have hfp : forwardPivot i s = divStep i s1 := rfl
  rw [hfp] at hok
  have hd1 : s1.m i i ≠ 0 := by
    have := hok
    simp only [divStep, Bool.and_eq_true, decide_eq_true_eq] at this
    exact this.2
  have hd : s.m i i ≠ 0 := by
    have hr : s1.m i = s.m i := belowLoop_frame i _ _ s i (by omega)
    rw [← congrFun hr i]
    exact hd1
  obtain ⟨P1, P2, P3, P4, P5⟩ :=
    belowLoop_spec i (n - ((i : ℕ) + 1)) ((i : ℕ) + 1) s (by omega) (by omega) hd hU.1
  rw [hfp]
  constructor
  · intro r c hc hcr
    by_cases hri : r = i
    · subst hri
      rw [divStep_m_self, P3 r c (by omega) hcr, zero_div]
    · rw [divStep_m_ne i s1 hri]
      by_cases hci : (c : ℕ) < (i : ℕ)
      · exact P3 r c hci hcr
      · have hceq : c = i := Fin.ext (by omega)
        subst hceq
        exact P2 r (by omega)
  · intro r hr
    by_cases hri : r = i
    · subst hri
      rw [divStep_m_self]
      exact div_self hd1
    · have hrlt : (r : ℕ) < (i : ℕ) := by
        rcases Nat.lt_or_ge (r : ℕ) (i : ℕ) with h | h
        · exact h
        · exact absurd (Fin.ext (by omega : (r : ℕ) = (i : ℕ))) hri
      rw [divStep_m_ne i s1 hri, (P1 r (by omega)).1]
      exact hU.2 r hrlt

theorem fwdLoop_ok_mono :
    ∀ (cnt i : ℕ) (s : ElimState n), (fwdLoop cnt i s).ok = true → s.ok = true := by
  intro cnt
  induction cnt with
  | zero => intro i s h; exact h
  | succ cnt ih =>
    intro i s h
    unfold fwdLoop at h
    by_cases hi : i < n
    · rw [dif_pos hi] at h
      exact forwardPivot_ok_mono (ih _ _ h)
    · rwa [dif_neg hi] at h

/-- The whole forward phase succeeds and produces a unit upper-triangular
working matrix when every leading principal minor is nonzero. -/
theorem fwdLoop_spec :
    ∀ (cnt i : ℕ) (s : ElimState n), i + cnt = n → UpperUni i s.m →
    (∀ (k : ℕ) (hk : k ≤ n), (lead hk s.m).det ≠ 0) →
    UpperUni n (fwdLoop cnt i s).m ∧ (fwdLoop cnt i s).ok = s.ok := by
  intro cnt
  induction cnt with
  | zero =>
    intro i s hin hU _
    have : i = n := by omega
    subst this
    exact ⟨hU, rfl⟩
  | succ cnt ih =>
    intro i s hin hU hMI
    have hi : i < n := by omega
    unfold fwdLoop
    rw [dif_pos hi]
    obtain ⟨hU', hMI', hok'⟩ := forwardPivot_spec (⟨i, hi⟩ : Fin n) s hU hMI
    obtain ⟨hU2, hok2⟩ := ih (i + 1) _ (by omega) hU' hMI'
    exact ⟨hU2, hok2.trans hok'⟩

/-- The whole forward phase, driven only by the `ok` flag. -/
theorem fwdLoop_shape :
    ∀ (cnt i : ℕ) (s : ElimState n), i + cnt = n → UpperUni i s.m →
    (fwdLoop cnt i s).ok = true → UpperUni n (fwdLoop cnt i s).m := by
  intro cnt
  induction cnt with
  | zero =>
    intro i s hin hU _
    have : i = n := by omega
    subst this
    exact hU
  | succ cnt ih =>
    intro i s hin hU hok
    have hi : i < n := by omega
    unfold fwdLoop at hok ⊢
    rw [dif_pos hi] at hok ⊢
    have hok' : (forwardPivot (⟨i, hi⟩ : Fin n) s).ok = true := fwdLoop_ok_mono _ _ _ hok
    exact ih (i + 1) _ (by omega) (forwardPivot_shape _ s hU hok') hok

/-! ### Backward phase -/

/-- Specification of the backward inner loop for pivot `i`: on a unit
upper-triangular working matrix whose columns right of `i` are already
cleared above the diagonal, rows `c-1, …, 0` get column `i` cleared while
everything else is preserved. -/
theorem abovLoop_spec (i : Fin n) :
    ∀ (c : ℕ) (s : ElimState n), c ≤ (i : ℕ) →
    (∀ r cc : Fin n, (cc : ℕ) < (r : ℕ) → s.m r cc = 0) →
    (∀ r : Fin n, s.m r r = 1) →
    (∀ r cc : Fin n, (r : ℕ) < (cc : ℕ) → (i : ℕ) < (cc : ℕ) → s.m r cc = 0) →
    (∀ r : Fin n, c ≤ (r : ℕ) → (r : ℕ) < (i : ℕ) → s.m r i = 0) →
    (∀ r cc : Fin n, (cc : ℕ) < (r : ℕ) → (abovLoop i c s).m r cc = 0) ∧
    (∀ r : Fin n, (abovLoop i c s).m r r = 1) ∧
    (∀ r cc : Fin n, (r : ℕ) < (cc : ℕ) → (i : ℕ) < (cc : ℕ) → (abovLoop i c s).m r cc = 0) ∧
    (∀ r : Fin n, (r : ℕ) < (i : ℕ) → (abovLoop i c s).m r i = 0) ∧
    (abovLoop i c s).ok = s.ok := by
  intro c
  induction c with
  | zero =>
    intro s _ hbelow hdiag habove hdone
    exact ⟨hbelow, hdiag, habove, fun r hr => hdone r (by omega) hr, rfl⟩
  | succ c ih =>
    intro s hc hbelow hdiag habove hdone
    have hcn : c < n := by omega
    unfold abovLoop
    rw [dif_pos hcn]
    set cf : Fin n := ⟨c, hcn⟩ with hcf
    have hcfv : (cf : ℕ) = c := rfl
    set s' := rowOpStep i cf s with hs'
    have hone : s.m i i = 1 := hdiag i
    have hci : (cf : ℕ) < (i : ℕ) := by omega
    have frow : ∀ cc : Fin n, s'.m cf cc = s.m cf cc + -(s.m cf i) / s.m i i * s.m i cc :=
      fun cc => by rw [hs', rowOpStep_m_self]
    have fne : ∀ r : Fin n, r ≠ cf → s'.m r = s.m r := fun r h => rowOpStep_m_ne s h
    have hbelow' : ∀ r cc : Fin n, (cc : ℕ) < (r : ℕ) → s'.m r cc = 0 := by
      intro r cc h
      by_cases hr : r = cf
      · subst hr
        rw [frow, hbelow _ _ h, hbelow i cc (by omega), mul_zero, add_zero]
      · rw [fne r hr]
        exact hbelow r cc h
    have hdiag' : ∀ r : Fin n, s'.m r r = 1 := by
      intro r
      by_cases hr : r = cf
      · subst hr
        rw [frow, hbelow i cf hci, mul_zero, add_zero]
        exact hdiag cf
      · rw [fne r hr]
        exact hdiag r
    have habove' : ∀ r cc : Fin n, (r : ℕ) < (cc : ℕ) → (i : ℕ) < (cc : ℕ) → s'.m r cc = 0 := by
      intro r cc h1 h2
      by_cases hr : r = cf
      · subst hr
        rw [frow, habove _ _ h1 h2, habove i cc h2 h2, mul_zero, add_zero]
      · rw [fne r hr]
        exact habove r cc h1 h2
    have hdone' : ∀ r : Fin n, c ≤ (r : ℕ) → (r : ℕ) < (i : ℕ) → s'.m r i = 0 := by
      intro r h1 h2
      by_cases hr : r = cf
      · subst hr
        rw [frow, hone, div_one, mul_one, add_neg_cancel]
      · rw [fne r hr]
        have hv : (r : ℕ) ≠ (cf : ℕ) := fun h => hr (Fin.ext h)
        exact hdone r (by omega) h2
    have okstep : s'.ok = s.ok := by
      simp [hs', rowOpStep, hone]
    obtain ⟨Q1, Q2, Q3, Q4, Q5⟩ := ih s' (by omega) hbelow' hdiag' habove' hdone'
    exact ⟨Q1, Q2, Q3, Q4, Q5.trans okstep⟩

/-- The whole backward phase turns a unit upper-triangular working matrix into
the identity without touching the `ok` flag. -/
theorem backLoop_spec :
    ∀ (cn : ℕ) (s : ElimState n), cn ≤ n →
    (∀ r cc : Fin n, (cc : ℕ) < (r : ℕ) → s.m r cc = 0) →
    (∀ r : Fin n, s.m r r = 1) →
    (∀ r cc : Fin n, (r : ℕ) < (cc : ℕ) → cn ≤ (cc : ℕ) → s.m r cc = 0) →
    (backLoop cn s).m = 1 ∧ (backLoop cn s).ok = s.ok := by
  intro cn
  induction cn with
  | zero =>
    intro s _ hbelow hdiag habove
    show s.m = 1 ∧ s.ok = s.ok
    refine ⟨?_, rfl⟩
    ext r cc
    rcases lt_trichotomy (r : ℕ) (cc : ℕ) with h | h | h
    · rw [habove r cc h (by omega), Matrix.one_apply_ne fun hrc => by
        have := congrArg Fin.val hrc
        omega]
    · have : r = cc := Fin.ext h
      subst this
      rw [hdiag, Matrix.one_apply_eq]
    · rw [hbelow r cc h, Matrix.one_apply_ne fun hrc => by
        have := congrArg Fin.val hrc
        omega]
  | succ cn ih =>
    intro s hcn hbelow hdiag habove
    have hn : cn < n := by omega
    unfold backLoop
    rw [dif_pos hn]
    have hpfv : (((⟨cn, hn⟩ : Fin n)) : ℕ) = cn := rfl
    have hbp : backPivot (⟨cn, hn⟩ : Fin n) s = abovLoop (⟨cn, hn⟩ : Fin n) cn s := rfl
    obtain ⟨Q1, Q2, Q3, Q4, Q5⟩ := abovLoop_spec (⟨cn, hn⟩ : Fin n) cn s (le_of_eq hpfv.symm)
      hbelow hdiag
      (fun r cc h1 h2 => habove r cc h1 (by omega))
      (fun r h1 h2 => absurd h1 (by omega))
    rw [hbp]
    have habove2 : ∀ r cc : Fin n, (r : ℕ) < (cc : ℕ) → cn ≤ (cc : ℕ) →
        (abovLoop (⟨cn, hn⟩ : Fin n) cn s).m r cc = 0 := by
      intro r cc h1 h2
      by_cases hcc : (cc : ℕ) = cn
      · have : cc = (⟨cn, hn⟩ : Fin n) := Fin.ext hcc
        subst this
        exact Q4 r (by omega)
      · exact Q3 r cc h1 (by omega)
    obtain ⟨R1, R2⟩ := ih (abovLoop (⟨cn, hn⟩ : Fin n) cn s) (by omega) Q1 Q2 habove2
    exact ⟨R1, R2.trans Q5⟩

/-! ### Global Gauss–Jordan correctness -/

theorem gaussJordan_ok_shape (m0 : Matrix (Fin n) (Fin n) ℚ)
    (hok : (gaussJordan m0).ok = true) : (gaussJordan m0).m = 1 := by
  unfold gaussJordan at hok ⊢
  set s0 : ElimState n := { m := m0, res := 1, ok := true } with hs0
  have hfwdok : (fwdLoop n 0 s0).ok = true := backLoop_ok_mono n _ hok
  have hU0 : UpperUni 0 s0.m :=
    ⟨fun r c hc _ => absurd hc (by omega), fun r hr => absurd hr (by omega)⟩
  have hUn : UpperUni n (fwdLoop n 0 s0).m := fwdLoop_shape n 0 s0 (by omega) hU0 hfwdok
  obtain ⟨R1, _⟩ := backLoop_spec n (fwdLoop n 0 s0) (le_refl n)
    (fun r cc h => hUn.1 r cc cc.isLt h) (fun r => hUn.2 r r.isLt)
    (fun r cc _ h2 => absurd cc.isLt (by omega))
  exact R1

theorem gaussJordan_left_inverse (m0 : Matrix (Fin n) (Fin n) ℚ)
    (hok : (gaussJordan m0).ok = true) : (gaussJordan m0).res * m0 = 1 := by
  rw [gaussJordan_stateInv m0, gaussJordan_ok_shape m0 hok]

theorem gaussJordan_ok_of_minors (m0 : Matrix (Fin n) (Fin n) ℚ)
    (HM : ∀ (k : ℕ) (hk : k ≤ n), (lead hk m0).det ≠ 0) :
    (gaussJordan m0).ok = true := by
  unfold gaussJordan
  set s0 : ElimState n := { m := m0, res := 1, ok := true } with hs0
  have hU0 : UpperUni 0 s0.m :=
    ⟨fun r c hc _ => absurd hc (by omega), fun r hr => absurd hr (by omega)⟩
  obtain ⟨hUn, hok⟩ := fwdLoop_spec n 0 s0 (by omega) hU0 HM
  obtain ⟨_, R2⟩ := backLoop_spec n (fwdLoop n 0 s0) (le_refl n)
    (fun r cc h => hUn.1 r cc cc.isLt h) (fun r => hUn.2 r r.isLt)
    (fun r cc _ h2 => absurd cc.isLt (by omega))
  rw [R2, hok]

theorem det_ne_zero_of_gaussJordan_ok (m0 : Matrix (Fin n) (Fin n) ℚ)
    (hok : (gaussJordan m0).ok = true) : m0.det ≠ 0 := by
  intro h0
  have h1 := gaussJordan_left_inverse m0 hok
  have h2 := congrArg Matrix.det h1
  rw [Matrix.det_mul, h0, mul_zero, Matrix.det_one] at h2
  exact zero_ne_one h2

/-! ### Application to the Vandermonde matrix of `from_points` -/

theorem lead_vandermonde (x : Fin n → ℚ) {k : ℕ} (hk : k ≤ n) :
    lead hk (Matrix.vandermonde x) =
      Matrix.vandermonde fun i : Fin k => x (Fin.castLE hk i) := by
  funext r c
  simp [lead, Matrix.vandermonde]

theorem vandermonde_minors (x : Fin n → ℚ) (hx : Function.Injective x) :
    ∀ (k : ℕ) (hk : k ≤ n), (lead hk (Matrix.vandermonde x)).det ≠ 0 := by
  intro k hk
  rw [lead_vandermonde]
  exact Matrix.det_vandermonde_ne_zero_iff.mpr (hx.comp (Fin.castLE_injective hk))

/-- `from_points` succeeds on pairwise-distinct x-coordinates and the computed
coefficients interpolate every input point exactly. -/
theorem fromPoints_interpolates (pts : Fin n → ℚ × ℚ)
    (hx : Function.Injective fun i => (pts i).1) :
    ∃ cs : Fin n → ℚ, fromPoints pts = some cs ∧
      ∀ i, ∑ j : Fin n, cs j * (pts i).1 ^ (j : ℕ) = (pts i).2 := by
  have hok : (gaussJordan (Matrix.vandermonde fun i => (pts i).1)).ok = true :=
    gaussJordan_ok_of_minors _ (vandermonde_minors _ hx)
  have hinv := gaussJordan_left_inverse _ hok
  refine ⟨multiply_vector (gaussJordan (Matrix.vandermonde fun i => (pts i).1)).res
    (fun i => (pts i).2), ?_, ?_⟩
  · show (if (gaussJordan (Matrix.vandermonde fun i => (pts i).1)).ok = true
      then some (multiply_vector (gaussJordan (Matrix.vandermonde fun i => (pts i).1)).res
        fun i => (pts i).2)
      else none) = _
    rw [if_pos hok]
  · intro i
    have hmul : Matrix.vandermonde (fun i => (pts i).1) *
        (gaussJordan (Matrix.vandermonde fun i => (pts i).1)).res = 1 :=
      Matrix.mul_eq_one_comm.mpr hinv
    have hvec : (Matrix.vandermonde fun i => (pts i).1).mulVec
        (multiply_vector (gaussJordan (Matrix.vandermonde fun i => (pts i).1)).res
          fun i => (pts i).2) = fun i => (pts i).2 := by
      unfold multiply_vector
      rw [Matrix.mulVec_mulVec, hmul, Matrix.one_mulVec]
    have hi := congrFun hvec i
    simp only [Matrix.mulVec, Matrix.dotProduct, Matrix.vandermonde_apply] at hi
    rw [← hi]
    exact Finset.sum_congr rfl fun j _ => mul_comm _ _

/-- `from_points` fails when two x-coordinates coincide: the Vandermonde
matrix is singular, so the elimination necessarily divides by zero (in `f32`,
produces non-finite values caught by the scan). -/
theorem fromPoints_dup (pts : Fin n → ℚ × ℚ) (a b : Fin n) (hab : a ≠ b)
    (hx : (pts a).1 = (pts b).1) : fromPoints pts = none := by
  have hdet : (Matrix.vandermonde fun i : Fin n => (pts i).1).det = 0 := by
    apply Matrix.det_zero_of_row_eq hab
    funext j
    simp [Matrix.vandermonde, hx]
  have hok : ¬(gaussJordan (Matrix.vandermonde fun i : Fin n => (pts i).1)).ok = true :=
    fun hok => det_ne_zero_of_gaussJordan_ok _ hok hdet
  show (if (gaussJordan (Matrix.vandermonde fun i : Fin n => (pts i).1)).ok = true
      then some (multiply_vector (gaussJordan
        (Matrix.vandermonde fun i : Fin n => (pts i).1)).res fun i => (pts i).2)
      else none) = none
  rw [if_neg hok]

/-! ### Claims C1 and C2 -/

/-- C1: for every array of N points (N=4 for Poly3, N=8 for Poly7) whose
x-coordinates are pairwise distinct, `from_points` returns `some` polynomial
`f` with `f(x_i) = y_i` at every input point (exactly, in the exact-arithmetic
model of the `f32` computation), for both `Poly3` and `Poly7`. -/
theorem C1_polynomial_roundtrip :
    (∀ pts : Fin 4 → ℚ × ℚ, Function.Injective (fun i => (pts i).1) →
      ∃ p : Poly3, Poly3.from_points pts = some p ∧ ∀ i, p.eval (pts i).1 = (pts i).2) ∧
    (∀ pts : Fin 8 → ℚ × ℚ, Function.Injective (fun i => (pts i).1) →
      ∃ p : Poly7, Poly7.from_points pts = some p ∧ ∀ i, p.eval (pts i).1 = (pts i).2) := by
  constructor
  · intro pts hx
    obtain ⟨cs, hsome, hint⟩ := fromPoints_interpolates pts hx
    refine ⟨{ a := cs 3, b := cs 2, c := cs 1, d := cs 0 }, ?_, ?_⟩
    · unfold Poly3.from_points
      rw [hsome, Option.map_some']
    · intro i
      have h := hint i
      rw [Fin.sum_univ_four] at h
      simp only [show ((0 : Fin 4) : ℕ) = 0 from rfl, show ((1 : Fin 4) : ℕ) = 1 from rfl,
        show ((2 : Fin 4) : ℕ) = 2 from rfl, show ((3 : Fin 4) : ℕ) = 3 from rfl] at h
      rw [← h]
      unfold Poly3.eval
      ring
  · intro pts hx
    obtain ⟨cs, hsome, hint⟩ := fromPoints_interpolates pts hx
    refine ⟨{ coeffs := cs }, ?_, ?_⟩
    · unfold Poly7.from_points
      rw [hsome, Option.map_some']
    · intro i
      have h := hint i
      rw [Fin.sum_univ_eight] at h
      simp only [show ((0 : Fin 8) : ℕ) = 0 from rfl, show ((1 : Fin 8) : ℕ) = 1 from rfl,
        show ((2 : Fin 8) : ℕ) = 2 from rfl, show ((3 : Fin 8) : ℕ) = 3 from rfl,
        show ((4 : Fin 8) : ℕ) = 4 from rfl, show ((5 : Fin 8) : ℕ) = 5 from rfl,
        show ((6 : Fin 8) : ℕ) = 6 from rfl, show ((7 : Fin 8) : ℕ) = 7 from rfl] at h
      rw [← h]
      unfold Poly7.eval Poly7.coeffList
      simp only [List.foldl_cons, List.foldl_nil]
      ring

/-- Concrete interpolation inputs used to witness C1. -/
def pts4w : Fin 4 → ℚ × ℚ := ![(0, 0), (1, 1), (2, 4), (3, 9)]

def pts8w : Fin 8 → ℚ × ℚ :=
  ![(0, 0), (1, 1), (2, 4), (3, 9), (4, 16), (5, 25), (6, 36), (7, 49)]

theorem C1_polynomial_roundtrip_witness :
    (∃ p : Poly3, Poly3.from_points pts4w = some p ∧
      ∀ i, p.eval (pts4w i).1 = (pts4w i).2) ∧
    (∃ p : Poly7, Poly7.from_points pts8w = some p ∧
      ∀ i, p.eval (pts8w i).1 = (pts8w i).2) :=
  ⟨C1_polynomial_roundtrip.1 pts4w (by decide),
   C1_polynomial_roundtrip.2 pts8w (by decide)⟩

/-- C2: whenever two input points share an x-coordinate, both
`Poly3::from_points` and `Poly7::from_points` return no polynomial.  In the
exact model the non-finite-coefficient scan of the source is the `ok` flag of
the elimination, so a returned polynomial never contains a non-finite
coefficient by construction. -/
theorem C2_degenerate_points_rejected :
    (∀ pts : Fin 4 → ℚ × ℚ, ∀ a b : Fin 4, a ≠ b → (pts a).1 = (pts b).1 →
      Poly3.from_points pts = none) ∧
    (∀ pts : Fin 8 → ℚ × ℚ, ∀ a b : Fin 8, a ≠ b → (pts a).1 = (pts b).1 →
      Poly7.from_points pts = none) := by
  constructor
  · intro pts a b hab hx
    unfold Poly3.from_points
    rw [fromPoints_dup pts a b hab hx, Option.map_none']
  · intro pts a b hab hx
    unfold Poly7.from_points
    rw [fromPoints_dup pts a b hab hx, Option.map_none']

/-- Concrete degenerate inputs used to witness C2. -/
def pts4d : Fin 4 → ℚ × ℚ := ![(1, 0), (1, 1), (2, 4), (3, 9)]

def pts8d : Fin 8 → ℚ × ℚ :=
  ![(1, 0), (1, 1), (2, 4), (3, 9), (4, 16), (5, 25), (6, 36), (7, 49)]

theorem C2_degenerate_points_rejected_witness :
    Poly3.from_points pts4d = none ∧ Poly7.from_points pts8d = none :=
  ⟨C2_degenerate_points_rejected.1 pts4d 0 1 (by decide) (by decide),
   C2_degenerate_points_rejected.2 pts8d 0 1 (by decide) (by decide)⟩

/-! ## Geometry: `cgmath` vectors over `ℝ` (exact model of `f32`)

`V3` models `Vector3<f32>`, `M3` models `Matrix3<f32>` (three column
vectors, as in `cgmath`).  Euclidean magnitudes use `Real.sqrt`. -/

structure V3 where
  x : ℝ
  y : ℝ
  z : ℝ

noncomputable instance : DecidableEq V3 := Classical.decEq V3

namespace V3

def zero : V3 := ⟨0, 0, 0⟩

def add (a b : V3) : V3 := ⟨a.x + b.x, a.y + b.y, a.z + b.z⟩

def sub (a b : V3) : V3 := ⟨a.x - b.x, a.y - b.y, a.z - b.z⟩

def scale (a : V3) (s : ℝ) : V3 := ⟨a.x * s, a.y * s, a.z * s⟩

def dot (a b : V3) : ℝ := a.x * b.x + a.y * b.y + a.z * b.z

def cross (a b : V3) : V3 :=
  ⟨a.y * b.z - a.z * b.y, a.z * b.x - a.x * b.z, a.x * b.y - a.y * b.x⟩

/-- `InnerSpace::magnitude`. -/
noncomputable def magnitude (a : V3) : ℝ := Real.sqrt (a.x ^ 2 + a.y ^ 2 + a.z ^ 2)

/-- `InnerSpace::normalize`: scale by the reciprocal magnitude. -/
noncomputable def normalize (a : V3) : V3 := a.scale (1 / a.magnitude)

/-- `MetricSpace::distance`: magnitude of the difference. -/
noncomputable def dist (a b : V3) : ℝ := (b.sub a).magnitude

/-- The comparison `a.distance(b) < r` as it appears in the selection loops,
as a boolean. -/
noncomputable def distLt (a b : V3) (r : ℝ) : Bool := decide (dist a b < r)

theorem distLt_iff (a b : V3) (r : ℝ) : distLt a b r = true ↔ dist a b < r := by
  simp [distLt]

theorem magnitude_nonneg (a : V3) : 0 ≤ a.magnitude := Real.sqrt_nonneg _

theorem magnitude_zero : magnitude zero = 0 := by
  unfold magnitude zero
  rw [show ((0 : ℝ) ^ 2 + 0 ^ 2 + 0 ^ 2) = 0 from by norm_num, Real.sqrt_zero]

theorem magnitude_pos_of_ne {a : V3} (h : a ≠ zero) : 0 < a.magnitude := by
  unfold magnitude
  rw [Real.sqrt_pos]
  rcases lt_or_eq_of_le (by positivity : (0 : ℝ) ≤ a.x ^ 2 + a.y ^ 2 + a.z ^ 2) with hlt | heq
  · exact hlt
  · exfalso
    apply h
    have hx : a.x = 0 := by nlinarith [sq_nonneg a.x, sq_nonneg a.y, sq_nonneg a.z]
    have hy : a.y = 0 := by nlinarith [sq_nonneg a.x, sq_nonneg a.y, sq_nonneg a.z]
    have hz : a.z = 0 := by nlinarith [sq_nonneg a.x, sq_nonneg a.y, sq_nonneg a.z]
    have ha : a = ⟨a.x, a.y, a.z⟩ := rfl
    rw [ha, hx, hy, hz]
    rfl

theorem magnitude_scale (a : V3) (s : ℝ) : (a.scale s).magnitude = |s| * a.magnitude := by
  unfold magnitude scale
  rw [show (a.x * s) ^ 2 + (a.y * s) ^ 2 + (a.z * s) ^ 2
      = s ^ 2 * (a.x ^ 2 + a.y ^ 2 + a.z ^ 2) from by ring,
    Real.sqrt_mul (sq_nonneg s), Real.sqrt_sq_eq_abs]

theorem magnitude_normalize {a : V3} (h : a ≠ zero) : a.normalize.magnitude = 1 := by
  have hm := magnitude_pos_of_ne h
  unfold normalize
  rw [magnitude_scale, abs_of_pos (div_pos one_pos hm), one_div,
    inv_mul_cancel₀ (ne_of_gt hm)]

end V3

/-- `Matrix3<f32>` of `cgmath`: three column vectors `x`, `y`, `z`. -/
structure M3 where
  x : V3
  y : V3
  z : V3

def M3.identity : M3 := ⟨⟨1, 0, 0⟩, ⟨0, 1, 0⟩, ⟨0, 0, 1⟩⟩

/-! ## Grid (`grid.rs`) -/

/-- `Bounds`: axis-aligned box, `pos` the bottom-left-front corner, `dir` the
diagonal to the upper-right-back corner. -/
structure Bounds where
  pos : V3
  dir : V3

def Bounds.left (b : Bounds) : ℝ := b.pos.x

def Bounds.bottom (b : Bounds) : ℝ := b.pos.y

def Bounds.front (b : Bounds) : ℝ := b.pos.z

/-- `Grid<Vector3<f32>>`: the flat cell-value list, the `(nx, ny, nz)`
dimensions (`size: Vector3<u32>` in the source; machine-width truncation is
outside the scope of this model), and the bounding box. -/
structure Grid where
  grid : List V3
  size_x : ℕ
  size_y : ℕ
  size_z : ℕ
  bounds : Bounds

namespace Grid

/-- `num_instances`. -/
def num_instances (g : Grid) : ℕ := g.size_x * g.size_y * g.size_z

/-- The position of the cell `(i, j, k)` as produced by `get_positions`
(fourth component fixed at `1.0`). -/
noncomputable def cell_position (g : Grid) (i j k : ℕ) : ℝ × ℝ × ℝ × ℝ :=
  (g.bounds.left + g.bounds.dir.x * (((i : ℝ) + 0.5) / (g.size_x : ℝ)),
   g.bounds.bottom + g.bounds.dir.y * (((j : ℝ) + 0.5) / (g.size_y : ℝ)),
   g.bounds.front + g.bounds.dir.z * (((k : ℝ) + 0.5) / (g.size_z : ℝ)),
   1)

/-- `get_positions`: triple nested loop, x outer, y middle, z inner. -/
noncomputable def get_positions (g : Grid) : List (ℝ × ℝ × ℝ × ℝ) :=
  (List.range g.size_x).flatMap fun i =>
    (List.range g.size_y).flatMap fun j =>
      (List.range g.size_z).map fun k => g.cell_position i j k

/-- `get_instances`: positions zipped with the value list, keeping the first
three position components. -/
noncomputable def get_instances (g : Grid) : List (V3 × V3) :=
  (g.get_positions.zip g.grid).map fun pd => (⟨pd.1.1, pd.1.2.1, pd.1.2.2.1⟩, pd.2)

/-- `get_indices`: indices of all cells whose position is strictly within
`radius` of `center`. -/
noncomputable def get_indices (g : Grid) (center : V3) (radius : ℝ) : List ℕ :=
  ((g.get_instances.enum.filter fun p => V3.distLt p.2.1 center radius).map
    Prod.fst)

end Grid

/-! ## Cursor / edit engine (`cursor.rs`) -/

inductive EditModeE where
  | Centered
  | Shift
  | Rotate
deriving DecidableEq

inductive RelAbE where
  | Relative
  | Absolute
deriving DecidableEq

inductive Falloff where
  | Abrupt
  | Linear
  | InverseDistance
deriving DecidableEq

structure EditMode where
  mode : EditModeE
  ra : RelAbE
  falloff : Falloff
  falloff_dist : ℝ
  strength : ℝ

/-- `EditMode::default()`. -/
noncomputable def EditMode.default : EditMode :=
  { mode := EditModeE.Shift
    ra := RelAbE.Relative
    falloff := Falloff.Abrupt
    falloff_dist := 1
    strength := 1 }

/-- `EditMode::get_vector`: displacement for one cell, given the cell value
`v`, the cell position `v_pos`, the mouse-down (anchor) position `md_pos`, the
current cursor position and the camera rotation basis. -/
noncomputable def EditMode.get_vector (em : EditMode) (v v_pos md_pos cursor_pos : V3)
    (cam_rot : M3) : V3 :=
  let cam_dir := cam_rot.z
  let cam_right := cam_rot.x
  let res := match em.mode with
    | EditModeE.Centered => (cursor_pos.sub v_pos).normalize
    | EditModeE.Shift => cursor_pos.sub md_pos
    | EditModeE.Rotate =>
        if cursor_pos = md_pos then v
        else
          let dc := cursor_pos.sub md_pos
          let dv := (v_pos.sub md_pos).normalize
          let dir := dv.cross cam_dir
          dir.scale (dc.dot cam_right)
  let res_len := res.magnitude
  let res2 := match em.falloff with
    | Falloff.Abrupt => res
    | Falloff.Linear =>
        let mag := (md_pos.sub v_pos).magnitude
        let factor := mag / em.falloff_dist
        res.scale (1 - factor)
    | Falloff.InverseDistance => res.scale (em.falloff_dist / (res_len + 1))
  res2.scale em.strength

structure Cursor where
  pos : V3
  distance_from_camera : ℝ
  outer_radius : ℝ
  inner_radius : ℝ
  mouse_pos_x : ℝ
  mouse_pos_y : ℝ
  modify_vector_indices : List ℕ
  mouse_down_vectors : List V3
  mouse_down_on : Option (V3 × M3)
  rot : M3
  edit_mode : EditMode

namespace Cursor

/-- `Cursor::new()`. -/
noncomputable def new : Cursor :=
  { pos := V3.zero
    rot := M3.identity
    distance_from_camera := 5
    outer_radius := 3
    inner_radius := 0.1
    modify_vector_indices := []
    mouse_down_vectors := []
    mouse_down_on := none
    mouse_pos_x := 0
    mouse_pos_y := 0
    edit_mode := EditMode.default }

/-- `Cursor::mouse_down`: record the anchor, clear both capture lists, then
push the index and current grid value of every cell within `falloff_dist`.
The source indexes `grid.grid[ix]` directly; `ix` ranges over the
enumeration of `get_instances`, whose length never exceeds `grid.grid.len()`,
so the access is in bounds and is modelled by `getD`. -/
noncomputable def mouse_down (c : Cursor) (g : Grid) : Cursor :=
  let sel := g.get_instances.enum.filter
    fun p => V3.distLt c.pos p.2.1 c.edit_mode.falloff_dist
  { c with
    mouse_down_on := some (c.pos, c.rot)
    modify_vector_indices := sel.map Prod.fst
    mouse_down_vectors := (sel.map Prod.fst).map fun ix => g.grid.getD ix V3.zero }

/-- `Cursor::mouse_up`: clears the anchor and `modify_vector_indices`.
(The source does not clear `mouse_down_vectors`.) -/
def mouse_up (c : Cursor) : Cursor :=
  { c with mouse_down_on := none, modify_vector_indices := [] }

/-- The body of the write-back loop of `Cursor::mouse_moved` for one captured
`(index, original_value)` pair: compute the displacement from the
`get_instances` snapshot and write it back, relative or absolute.  The source
indexes `v_pos_dir[*ix]` and `grid.grid[*ix]` directly; both accesses are in
bounds for indices captured by `mouse_down` on the same grid (claim C10) and
are modelled by `getD` / `List.set`. -/
noncomputable def apply_edit (c : Cursor) (md_pos : V3) (v_pos_dir : List (V3 × V3))
    (gg : Grid) (p : ℕ × V3) : Grid :=
  let displacement := c.edit_mode.get_vector
    (v_pos_dir.getD p.1 (V3.zero, V3.zero)).2
    (v_pos_dir.getD p.1 (V3.zero, V3.zero)).1
    md_pos c.pos c.rot
  match c.edit_mode.ra with
  | RelAbE.Relative => { gg with grid := gg.grid.set p.1 (displacement.add p.2) }
  | RelAbE.Absolute => { gg with grid := gg.grid.set p.1 displacement }

/-- `Cursor::mouse_moved`: store the mouse position; when dragging, recompute
the displacement of every captured cell from the `get_instances` snapshot
taken before the loop and write it back, iterating
`modify_vector_indices.iter().zip(&mouse_down_vectors)`. -/
noncomputable def mouse_moved (c : Cursor) (mouse_x mouse_y : ℝ) (g : Grid) :
    Cursor × Grid :=
  let c' := { c with mouse_pos_x := mouse_x, mouse_pos_y := mouse_y }
  match c.mouse_down_on with
  | none => (c', g)
  | some (md_pos, _mdrot) =>
      let v_pos_dir := g.get_instances
      let g' := (c.modify_vector_indices.zip c.mouse_down_vectors).foldl
        (c.apply_edit md_pos v_pos_dir) g
      (c', g')

end Cursor

/-! ## Key sampling (`Cursor::process_input`) -/

inductive VirtualKeyCode where
  | Space
  | LControl
  | RControl
  | LShift
  | RShift
  | OtherKey
deriving DecidableEq

/-- The body of the key loop of `Cursor::process_input`: control keys select
`Rotate`, shift keys select `Shift`, other keys leave the mode unchanged. -/
def modeStep (em : EditMode) (k : VirtualKeyCode) : EditMode :=
  match k with
  | VirtualKeyCode.LControl | VirtualKeyCode.RControl =>
      { em with mode := EditModeE.Rotate }
  | VirtualKeyCode.LShift | VirtualKeyCode.RShift =>
      { em with mode := EditModeE.Shift }
  | _ => em

/-- `Cursor::process_input`: reset mode to `Centered`, set relativity from the
space key, then scan the held keys in order, control selecting `Rotate` and
shift selecting `Shift`. -/
def Cursor.process_input (c : Cursor) (keys : List VirtualKeyCode) : Cursor :=
  let em0 := { c.edit_mode with mode := EditModeE.Centered }
  let em1 :=
    if keys.contains VirtualKeyCode.Space then { em0 with ra := RelAbE.Absolute }
    else { em0 with ra := RelAbE.Relative }
  let em2 := keys.foldl modeStep em1
  { c with edit_mode := em2 }

/-! ## Camera (`camera.rs`) -/

/-- The camera state relevant to the orbit repositioning: the position and the
optional `(look_at_target, orbit_distance)` pair.  Orientation and projection
state are read but not written by the repositioning and are omitted. -/
structure Camera where
  pos : V3
  look_at_distance : Option (V3 × ℝ)

/-- The mutation of `pos` performed by `Camera::get_view_matrix` (lines 89-97
of `camera.rs`): when an orbit target is set, nudge the position if it equals
the target, then re-project it onto the orbit sphere.  The subsequent
orientation update and the returned matrix read but do not modify `pos` or
`look_at_distance`. -/
noncomputable def Camera.get_view_matrix_reposition (c : Camera) : Camera :=
  match c.look_at_distance with
  | none => c
  | some (look_at, distance) =>
      let p1 := if look_at = c.pos then c.pos.add ⟨0, 0, -1⟩ else c.pos
      let diff := look_at.sub p1
      { c with pos := look_at.sub (diff.normalize.scale distance) }

/-! ## Claims C4 and C5: `get_vector` -/

theorem V3.scale_one (a : V3) : a.scale 1 = a := by
  simp [V3.scale]

/-- In Shift mode with Abrupt falloff and strength 1, the displacement is the
drag delta, independent of the cell value and position. -/
theorem get_vector_shift (em : EditMode) (v v_pos md cp : V3) (rot : M3)
    (hm : em.mode = EditModeE.Shift) (hf : em.falloff = Falloff.Abrupt)
    (hs : em.strength = 1) :
    em.get_vector v v_pos md cp rot = cp.sub md := by
  unfold EditMode.get_vector
  rw [hm, hf, hs]
  simp [V3.scale_one]

theorem foldl_grid_set (f : ℕ × V3 → V3) (g : Grid) (L : List (ℕ × V3)) :
    (L.foldl (fun gg p => { gg with grid := gg.grid.set p.1 (f p) }) g).grid
      = L.foldl (fun l p => l.set p.1 (f p)) g.grid := by
  induction L generalizing g with
  | nil => rfl
  | cons p L ih => simp only [List.foldl_cons, ih]

theorem foldl_list_set_const (K : V3) :
    ∀ (L : List (ℕ × V3)) (l : List V3) (ix : ℕ), ix < l.length →
    (L.foldl (fun l p => l.set p.1 K) l).getD ix V3.zero
      = if ix ∈ L.map Prod.fst then K else l.getD ix V3.zero := by
  intro L
  induction L with
  | nil =>
    intro l ix h
    simp
  | cons p L ih =>
    intro l ix hix
    simp only [List.foldl_cons, List.map_cons, List.mem_cons]
    rw [ih (l.set p.1 K) ix (by rwa [List.length_set])]
    by_cases h1 : ix ∈ L.map Prod.fst
    · simp [h1]
    · by_cases h2 : ix = p.1
      · subst h2
        simp only [h1, if_false, true_or, if_true, if_pos (Or.inl rfl)]
        rw [List.getD_eq_getElem _ _ (by rwa [List.length_set]), List.getElem_set_self]
      · rw [if_neg (show ¬(ix = p.1 ∨ ix ∈ List.map Prod.fst L) from fun hc =>
          hc.elim h2 h1)]
        rw [if_neg h1]
        rw [List.getD_eq_getElem _ _ (by rwa [List.length_set]),
          List.getD_eq_getElem _ _ hix]
        exact List.getElem_set_ne (fun h => h2 h.symm) _

theorem foldl_grid_set_const (K : V3) (g : Grid) (L : List (ℕ × V3)) :
    (L.foldl (fun gg p => { gg with grid := gg.grid.set p.1 K }) g).grid
      = L.foldl (fun l p => l.set p.1 K) g.grid := by
  induction L generalizing g with
  | nil => rfl
  | cons p L ih => simp only [List.foldl_cons, ih]

/-- Under the C4 edit-mode configuration the loop body writes the constant
drag delta. -/
theorem apply_edit_shift_abs (c : Cursor) (md : V3) (vpd : List (V3 × V3))
    (gg : Grid) (p : ℕ × V3)
    (hmode : c.edit_mode.mode = EditModeE.Shift)
    (hra : c.edit_mode.ra = RelAbE.Absolute)
    (hf : c.edit_mode.falloff = Falloff.Abrupt)
    (hs : c.edit_mode.strength = 1) :
    c.apply_edit md vpd gg p = { gg with grid := gg.grid.set p.1 (c.pos.sub md) } := by
  unfold Cursor.apply_edit
  rw [hra]
  simp only [get_vector_shift c.edit_mode _ _ md c.pos c.rot hmode hf hs]

/-- C4: with mode=Shift, relativity=Absolute, falloff=Abrupt, strength=1, a
mouse-move during a drag writes the same displacement vector
`cursor_pos - anchor_pos` into every affected grid cell, independent of the
cell's position and of the cell's current value. -/
theorem C4_shift_mode_determinism (c : Cursor) (g : Grid) (mx my : ℝ) (md : V3)
    (rot0 : M3)
    (hdown : c.mouse_down_on = some (md, rot0))
    (hmode : c.edit_mode.mode = EditModeE.Shift)
    (hra : c.edit_mode.ra = RelAbE.Absolute)
    (hf : c.edit_mode.falloff = Falloff.Abrupt)
    (hs : c.edit_mode.strength = 1)
    (hlen : c.modify_vector_indices.length ≤ c.mouse_down_vectors.length) :
    ∀ ix ∈ c.modify_vector_indices, ix < g.grid.length →
      ((c.mouse_moved mx my g).2).grid.getD ix V3.zero = c.pos.sub md := by
  intro ix hmem hix
  unfold Cursor.mouse_moved
  rw [hdown]
  simp only
  rw [List.foldl_ext (c.apply_edit md g.get_instances)
    (fun gg p => { gg with grid := gg.grid.set p.1 (c.pos.sub md) }) g
    (fun gg p _ => apply_edit_shift_abs c md g.get_instances gg p hmode hra hf hs)]
  rw [foldl_grid_set_const, foldl_list_set_const _ _ _ _ hix,
    List.map_fst_zip _ _ hlen, if_pos hmem]

/-- Concrete single-cell grid used by several witnesses. -/
noncomputable def gw : Grid :=
  { grid := [V3.zero]
    size_x := 1
    size_y := 1
    size_z := 1
    bounds := { pos := V3.zero, dir := V3.zero } }

/-- Concrete dragging cursor in the C4 configuration. -/
noncomputable def cw4 : Cursor :=
  { pos := ⟨1, 2, 3⟩
    rot := M3.identity
    distance_from_camera := 5
    outer_radius := 3
    inner_radius := 0.1
    modify_vector_indices := [0]
    mouse_down_vectors := [V3.zero]
    mouse_down_on := some (V3.zero, M3.identity)
    mouse_pos_x := 0
    mouse_pos_y := 0
    edit_mode :=
      { mode := EditModeE.Shift
        ra := RelAbE.Absolute
        falloff := Falloff.Abrupt
        falloff_dist := 1
        strength := 1 } }

theorem C4_shift_mode_determinism_witness :
    ((cw4.mouse_moved 0 0 gw).2).grid.getD 0 V3.zero = cw4.pos.sub V3.zero :=
  C4_shift_mode_determinism cw4 gw 0 0 V3.zero M3.identity rfl rfl rfl rfl rfl
    (by simp [cw4]) 0 (by simp [cw4]) (by simp [gw])

/-- C5 (amended): with mode=Rotate, falloff=Abrupt and strength=1 (the default
falloff and strength), calling the displacement function with the cursor at
the anchor returns the unmodified input value exactly; for other falloffs or
strengths the guard value `v` is still scaled afterwards. -/
theorem C5_rotate_degenerate_amended (em : EditMode) (v v_pos p : V3) (rot : M3)
    (hm : em.mode = EditModeE.Rotate) (hf : em.falloff = Falloff.Abrupt)
    (hs : em.strength = 1) :
    em.get_vector v v_pos p p rot = v := by
  unfold EditMode.get_vector
  rw [hm, hf, hs]
  simp [V3.scale_one]

/-- Rotate-mode configuration with strength 2: a counterexample to the claim
as stated (which quantifies over every EditMode configuration). -/
noncomputable def emC5x : EditMode :=
  { mode := EditModeE.Rotate
    ra := RelAbE.Relative
    falloff := Falloff.Abrupt
    falloff_dist := 1
    strength := 2 }

theorem C5_rotate_degenerate_counterexample :
    emC5x.get_vector ⟨1, 0, 0⟩ ⟨5, 5, 5⟩ ⟨0, 0, 0⟩ ⟨0, 0, 0⟩ M3.identity ≠ ⟨1, 0, 0⟩ := by
  unfold EditMode.get_vector emC5x
  simp only [if_pos rfl]
  simp [V3.scale, V3.mk.injEq]

noncomputable def emC5w : EditMode :=
  { mode := EditModeE.Rotate
    ra := RelAbE.Relative
    falloff := Falloff.Abrupt
    falloff_dist := 1
    strength := 1 }

theorem C5_rotate_degenerate_witness :
    emC5w.get_vector ⟨1, 2, 3⟩ ⟨4, 5, 6⟩ ⟨7, 8, 9⟩ ⟨7, 8, 9⟩ M3.identity = ⟨1, 2, 3⟩ :=
  C5_rotate_degenerate_amended emC5w ⟨1, 2, 3⟩ ⟨4, 5, 6⟩ ⟨7, 8, 9⟩ M3.identity rfl rfl rfl

/-! ## Claim C3: edit-session state machine -/

theorem V3.ext' {a b : V3} (hx : a.x = b.x) (hy : a.y = b.y) (hz : a.z = b.z) :
    a = b := by
  cases a
  cases b
  simp_all

theorem V3.sub_self (a : V3) : a.sub a = V3.zero := by
  apply V3.ext' <;> simp [V3.sub, V3.zero]

theorem V3.dist_self (a : V3) : V3.dist a a = 0 := by
  unfold V3.dist
  rw [V3.sub_self, V3.magnitude_zero]

/-- C3 (amended): after `mouse_down` the two capture lists have equal length;
after `mouse_up` the drag anchor is cleared and the affected-indices list is
empty (the captured-original-values list is not cleared by the source), and
subsequent `mouse_moved` calls mutate no grid cell until the next
`mouse_down`. -/
theorem C3_edit_session_amended :
    (∀ (c : Cursor) (g : Grid),
      (c.mouse_down g).modify_vector_indices.length
        = (c.mouse_down g).mouse_down_vectors.length) ∧
    (∀ c : Cursor, c.mouse_up.mouse_down_on = none ∧
      c.mouse_up.modify_vector_indices = []) ∧
    (∀ (c : Cursor) (mx my : ℝ) (g : Grid), c.mouse_down_on = none →
      (c.mouse_moved mx my g).2 = g ∧
      (c.mouse_moved mx my g).1.mouse_down_on = none) := by
  refine ⟨?_, ?_, ?_⟩
  · intro c g
    unfold Cursor.mouse_down
    simp
  · intro c
    exact ⟨rfl, rfl⟩
  · intro c mx my g h
    constructor
    · simp [Cursor.mouse_moved, h]
    · simp [Cursor.mouse_moved, h]

theorem C3_edit_session_amended_witness :
    (Cursor.new.mouse_moved 1 2 gw).2 = gw ∧
    (Cursor.new.mouse_moved 1 2 gw).1.mouse_down_on = none :=
  C3_edit_session_amended.2.2 Cursor.new 1 2 gw rfl

/-- On the one-cell grid `gw`, the cell is selected at `mouse_down` (distance
0 < falloff 1); after `mouse_up`, `mouse_down_vectors` still holds the
captured value, refuting "after mouse_up, both lists are empty". -/
theorem C3_edit_session_counterexample :
    ((Cursor.new.mouse_down gw).mouse_up).mouse_down_vectors ≠ [] := by
  have hinst : gw.get_instances = [(V3.zero, V3.zero)] := by
    unfold Grid.get_instances Grid.get_positions Grid.cell_position
    simp [gw, V3.zero, Bounds.left, Bounds.bottom, Bounds.front, List.range_succ]
  have hdistlt : V3.dist Cursor.new.pos V3.zero < Cursor.new.edit_mode.falloff_dist := by
    show V3.dist V3.zero V3.zero < (1 : ℝ)
    rw [V3.dist_self]
    norm_num
  have h3 : V3.distLt Cursor.new.pos V3.zero Cursor.new.edit_mode.falloff_dist = true :=
    (V3.distLt_iff _ _ _).mpr hdistlt
  have hfil : List.filter
      (fun p => V3.distLt Cursor.new.pos p.2.1 Cursor.new.edit_mode.falloff_dist)
      [((0 : ℕ), (V3.zero, V3.zero))] = [((0 : ℕ), (V3.zero, V3.zero))] := by
    rw [@List.filter_cons_of_pos _
      (fun p : ℕ × (V3 × V3) =>
        V3.distLt Cursor.new.pos p.2.1 Cursor.new.edit_mode.falloff_dist)
      ((0 : ℕ), (V3.zero, V3.zero)) [] h3, List.filter_nil]
  show (Cursor.new.mouse_down gw).mouse_down_vectors ≠ []
  unfold Cursor.mouse_down
  simp only [hinst, List.enum_cons, List.enumFrom_nil, hfil]
  simp

/-! ## Claim C6: camera orbit distance -/

/-- C6 (amended): after the orbit repositioning of `get_view_matrix`, the
distance between the camera position and the orbit target equals the absolute
value of the stored orbit distance, for every prior camera position.  (The
stored distance itself can be negative, since `motion(Forward)` decrements it
without clamping.) -/
theorem C6_camera_orbit_distance_amended (c : Camera) (la : V3) (d : ℝ)
    (h : c.look_at_distance = some (la, d)) :
    V3.dist c.get_view_matrix_reposition.pos la = |d| := by
  unfold Camera.get_view_matrix_reposition
  rw [h]
  simp only
  have hdiff : la.sub (if la = c.pos then c.pos.add ⟨0, 0, -1⟩ else c.pos) ≠ V3.zero := by
    by_cases hc : la = c.pos
    · rw [if_pos hc, hc]
      intro hzero
      have hz := congrArg V3.z hzero
      simp [V3.sub, V3.add, V3.zero] at hz
    · rw [if_neg hc]
      intro hzero
      apply hc
      have hx := congrArg V3.x hzero
      have hy := congrArg V3.y hzero
      have hz := congrArg V3.z hzero
      simp only [V3.sub, V3.zero] at hx hy hz
      exact V3.ext' (by linarith) (by linarith) (by linarith)
  set u := (la.sub (if la = c.pos then c.pos.add ⟨0, 0, -1⟩ else c.pos)).normalize with hu
  have hum : u.magnitude = 1 := V3.magnitude_normalize hdiff
  have hback : la.sub (la.sub (u.scale d)) = u.scale d := by
    apply V3.ext' <;> simp [V3.sub]
  unfold V3.dist
  rw [hback, V3.magnitude_scale, hum, mul_one]

/-- Camera with a negative stored orbit distance. -/
noncomputable def camC6 : Camera := { pos := ⟨0, 0, 2⟩, look_at_distance := some (V3.zero, -1) }

/-- C6 as stated fails when the stored orbit distance is negative: the
Euclidean distance is nonnegative, so it cannot equal `-1`. -/
theorem C6_camera_orbit_distance_counterexample :
    camC6.look_at_distance = some (V3.zero, -1) ∧
    V3.dist camC6.get_view_matrix_reposition.pos V3.zero ≠ (-1 : ℝ) := by
  refine ⟨rfl, fun hcontra => ?_⟩
  have h0 : (0 : ℝ) ≤ V3.dist camC6.get_view_matrix_reposition.pos V3.zero :=
    V3.magnitude_nonneg _
  rw [hcontra] at h0
  linarith

noncomputable def camC6w : Camera := { pos := ⟨0, 0, 2⟩, look_at_distance := some (V3.zero, 5) }

theorem C6_camera_orbit_distance_witness :
    V3.dist camC6w.get_view_matrix_reposition.pos V3.zero = |(5 : ℝ)| :=
  C6_camera_orbit_distance_amended camC6w V3.zero 5 rfl

/-! ## Claim C7: selection radius monotonicity -/

/-- C7: enlarging the selection radius can only enlarge the returned index
set. -/
theorem C7_selection_radius_monotone (g : Grid) (center : V3) (r1 r2 : ℝ)
    (h : r1 ≤ r2) : g.get_indices center r1 ⊆ g.get_indices center r2 := by
  intro ix hmem
  unfold Grid.get_indices at *
  simp only [List.mem_map, List.mem_filter] at *
  obtain ⟨p, ⟨hp, hd⟩, hfst⟩ := hmem
  refine ⟨p, ⟨hp, ?_⟩, hfst⟩
  rw [V3.distLt_iff] at hd ⊢
  linarith

theorem C7_selection_radius_monotone_witness :
    gw.get_indices V3.zero 1 ⊆ gw.get_indices V3.zero 2 :=
  C7_selection_radius_monotone gw V3.zero 1 2 (by norm_num)

/-! ## Claim C9: key sampling -/

def isModifier : VirtualKeyCode → Bool
  | VirtualKeyCode.LControl | VirtualKeyCode.RControl => true
  | VirtualKeyCode.LShift | VirtualKeyCode.RShift => true
  | _ => false

/-- The mode selected by one key, with a fallback for non-modifier keys. -/
def keyMode (k : VirtualKeyCode) (dflt : EditModeE) : EditModeE :=
  match k with
  | VirtualKeyCode.LControl | VirtualKeyCode.RControl => EditModeE.Rotate
  | VirtualKeyCode.LShift | VirtualKeyCode.RShift => EditModeE.Shift
  | _ => dflt

theorem modeStep_ra (em : EditMode) (k : VirtualKeyCode) :
    (modeStep em k).ra = em.ra := by
  cases k <;> rfl

theorem foldl_modeStep_ra :
    ∀ (keys : List VirtualKeyCode) (em : EditMode),
    (keys.foldl modeStep em).ra = em.ra := by
  intro keys
  induction keys with
  | nil => intro em; rfl
  | cons k keys ih =>
    intro em
    rw [List.foldl_cons, ih, modeStep_ra]

theorem keyMode_of_modifier {k : VirtualKeyCode} (h : isModifier k = true)
    (d d' : EditModeE) : keyMode k d = keyMode k d' := by
  cases k <;> simp_all [isModifier, keyMode]

/-- The key loop keeps the mode of the last modifier key in the list (the
first modifier of the reversed list), or leaves the initial mode if no
modifier is held. -/
theorem foldl_modeStep_mode :
    ∀ (keys : List VirtualKeyCode) (em : EditMode),
    (keys.foldl modeStep em).mode =
      match keys.reverse.find? isModifier with
      | none => em.mode
      | some k => keyMode k em.mode := by
  intro keys
  induction keys with
  | nil => intro em; rfl
  | cons k keys ih =>
    intro em
    rw [List.foldl_cons, ih, List.reverse_cons, List.find?_append]
    rcases hfind : keys.reverse.find? isModifier with _ | k'
    · simp only [Option.none_or]
      cases hk : isModifier k
      · have hstep : (modeStep em k).mode = em.mode := by
          cases k <;> simp_all [isModifier, modeStep]
        have hfk : List.find? isModifier [k] = none := by
          simp [List.find?, hk]
        rw [hfk, hstep]
      · have hfk : List.find? isModifier [k] = some k := by
          simp [List.find?, hk]
        rw [hfk]
        cases k <;> simp_all [isModifier, modeStep, keyMode]
    · simp only [Option.or]
      have hmod : isModifier k' = true := List.find?_some hfind
      exact keyMode_of_modifier hmod _ _

/-- C9 (amended): relativity is Absolute exactly when the space key is held,
Relative otherwise; the mode is Centered when no control or shift key is
held, and otherwise is decided by the LAST control-or-shift key in the
sampled key list (Rotate for control, Shift for shift) — all regardless of
the state before the call.  (When both a control key and a shift key are
held, the later key in the list wins, not necessarily Rotate.) -/
theorem C9_process_input_amended (c : Cursor) (keys : List VirtualKeyCode) :
    ((c.process_input keys).edit_mode.ra =
      if keys.contains VirtualKeyCode.Space then RelAbE.Absolute
      else RelAbE.Relative) ∧
    ((c.process_input keys).edit_mode.mode =
      match keys.reverse.find? isModifier with
      | none => EditModeE.Centered
      | some k => keyMode k EditModeE.Centered) := by
  unfold Cursor.process_input
  simp only
  constructor
  · rw [foldl_modeStep_ra]
    cases hc : keys.contains VirtualKeyCode.Space
    · simp [hc]
    · simp [hc]
  · rw [foldl_modeStep_mode]
    cases hc : keys.contains VirtualKeyCode.Space
    · simp [hc]
    · simp [hc]

/-- C9 as stated fails when a control key and a shift key are held together:
the control key is held, yet the resulting mode is `Shift`, not `Rotate`
(the later key in the sampled list wins). -/
theorem C9_process_input_counterexample :
    VirtualKeyCode.LControl ∈ [VirtualKeyCode.LControl, VirtualKeyCode.LShift] ∧
    (Cursor.new.process_input
      [VirtualKeyCode.LControl, VirtualKeyCode.LShift]).edit_mode.mode
        = EditModeE.Shift ∧
    EditModeE.Shift ≠ EditModeE.Rotate := by
  refine ⟨by simp, rfl, by simp⟩

/-! ## Claim C8: grid index bijection and cell addressing -/

/-- The linear index `idx(i,j,k) = i*ny*nz + j*nz + k` implicit in the
nesting order of the loops of `get_positions` and `new_centered`. -/
def Grid.linear_index (g : Grid) (i j k : ℕ) : ℕ :=
  i * g.size_y * g.size_z + j * g.size_z + k

theorem length_flatMap_const {α β : Type} (l : List α) (f : α → List β) (m : ℕ)
    (h : ∀ x ∈ l, (f x).length = m) : (l.flatMap f).length = l.length * m := by
  induction l with
  | nil => simp
  | cons a l ih =>
    rw [List.flatMap_cons, List.length_append, h a (by simp),
      ih fun x hx => h x (by simp [hx]), List.length_cons]
    ring

theorem getD_flatMap_range' {β : Type} (f : ℕ → List β) (m : ℕ) (d : β)
    (hlen : ∀ x, (f x).length = m) :
    ∀ (cnt s q r : ℕ), q < cnt → r < m →
    ((List.range' s cnt).flatMap f).getD (q * m + r) d = (f (s + q)).getD r d := by
  intro cnt
  induction cnt with
  | zero =>
    intro s q r hq _
    exact absurd hq (Nat.not_lt_zero q)
  | succ cnt ih =>
    intro s q r hq hr
    rw [List.range'_succ, List.flatMap_cons]
    cases q with
    | zero =>
      rw [Nat.zero_mul, Nat.zero_add,
        List.getD_append _ _ _ _ (by rw [hlen]; exact hr), Nat.add_zero]
    | succ q =>
      have hidx : (q + 1) * m + r = (f s).length + (q * m + r) := by
        rw [hlen]
        ring
      rw [hidx, List.getD_append_right _ _ _ _ (Nat.le_add_right _ _),
        Nat.add_sub_cancel_left, ih (s + 1) q r (by omega) hr,
        show s + 1 + q = s + (q + 1) from by omega]

theorem getD_map_range' {β : Type} (f : ℕ → β) (d : β) (s cnt k : ℕ) (hk : k < cnt) :
    ((List.range' s cnt).map f).getD k d = f (s + k) := by
  rw [List.getD_eq_getElem _ _ (by simpa using hk), List.getElem_map,
    List.getElem_range', Nat.one_mul]

/-- The length of `get_positions` is the full cell count. -/
theorem Grid.get_positions_length (g : Grid) :
    g.get_positions.length = g.size_x * g.size_y * g.size_z := by
  unfold Grid.get_positions
  rw [length_flatMap_const _ _ (g.size_y * g.size_z)
    (fun x _ => by
      rw [length_flatMap_const _ _ g.size_z (fun y _ => by simp), List.length_range]),
    List.length_range, Nat.mul_assoc]

/-- Decomposition of a mixed-radix index: `a*nz + k` with `k < nz` determines
`a` and `k`. -/
theorem mixed_radix_inj {nz a k a' k' : ℕ} (hk : k < nz) (hk' : k' < nz)
    (h : a * nz + k = a' * nz + k') : a = a' ∧ k = k' := by
  have hz : 0 < nz := by omega
  have hmod : k = k' := by
    have h1 : (nz * a + k) % nz = (nz * a' + k') % nz := by
      rw [Nat.mul_comm nz a, Nat.mul_comm nz a', h]
    rwa [Nat.mul_add_mod, Nat.mul_add_mod, Nat.mod_eq_of_lt hk,
      Nat.mod_eq_of_lt hk'] at h1
  subst hmod
  refine ⟨?_, rfl⟩
  have h2 : (nz * a + k) / nz = (nz * a' + k) / nz := by
    rw [Nat.mul_comm nz a, Nat.mul_comm nz a', h]
  rwa [Nat.mul_add_div hz, Nat.mul_add_div hz, Nat.div_eq_of_lt hk,
    Nat.add_zero, Nat.add_zero] at h2

theorem mixed_radix_bound {n m a b : ℕ} (ha : a < n) (hb : b < m) :
    a * m + b < n * m := by
  calc a * m + b < a * m + m := by omega
  _ = (a + 1) * m := by ring
  _ ≤ n * m := Nat.mul_le_mul_right m (by omega)

/-- C8: the linear index `i*ny*nz + j*nz + k` is within `[0, nx*ny*nz)` and
injective over in-range triples; the flattened position array has exactly
`nx*ny*nz` entries; and the entry at the linear index of `(i,j,k)` is the
cell-center position `origin_a + extent_a * ((index_a + 0.5) / n_a)` per
axis (with `w = 1`). -/
theorem C8_grid_index_bijection (g : Grid) :
    g.get_positions.length = g.size_x * g.size_y * g.size_z ∧
    (∀ i j k, i < g.size_x → j < g.size_y → k < g.size_z →
      g.linear_index i j k < g.size_x * g.size_y * g.size_z ∧
      g.get_positions.getD (g.linear_index i j k) (0, 0, 0, 0)
        = g.cell_position i j k) ∧
    (∀ i j k i' j' k', i < g.size_x → j < g.size_y → k < g.size_z →
      i' < g.size_x → j' < g.size_y → k' < g.size_z →
      g.linear_index i j k = g.linear_index i' j' k' →
      i = i' ∧ j = j' ∧ k = k') := by
  refine ⟨g.get_positions_length, ?_, ?_⟩
  · intro i j k hi hj hk
    constructor
    · unfold Grid.linear_index
      have h1 : j * g.size_z + k < g.size_y * g.size_z := mixed_radix_bound hj hk
      have h2 : i * (g.size_y * g.size_z) + (j * g.size_z + k)
          < g.size_x * (g.size_y * g.size_z) := mixed_radix_bound hi h1
      calc i * g.size_y * g.size_z + j * g.size_z + k
          = i * (g.size_y * g.size_z) + (j * g.size_z + k) := by ring
        _ < g.size_x * (g.size_y * g.size_z) := h2
        _ = g.size_x * g.size_y * g.size_z := by ring
    · unfold Grid.get_positions Grid.linear_index
      rw [List.range_eq_range' g.size_x,
        show i * g.size_y * g.size_z + j * g.size_z + k
          = i * (g.size_y * g.size_z) + (j * g.size_z + k) from by ring,
        getD_flatMap_range' _ (g.size_y * g.size_z) _
          (fun x => by
            rw [length_flatMap_const _ _ g.size_z (fun y _ => by simp),
              List.length_range])
          g.size_x 0 i (j * g.size_z + k) hi (mixed_radix_bound hj hk),
        Nat.zero_add, List.range_eq_range' g.size_y,
        getD_flatMap_range' _ g.size_z _ (fun y => by simp) g.size_y 0 j k hj hk,
        Nat.zero_add, List.range_eq_range' g.size_z, getD_map_range' _ _ 0 g.size_z k hk,
        Nat.zero_add]
  · intro i j k i' j' k' hi hj hk hi' hj' hk' heq
    unfold Grid.linear_index at heq
    have heq2 : (i * g.size_y + j) * g.size_z + k
        = (i' * g.size_y + j') * g.size_z + k' := by
      calc (i * g.size_y + j) * g.size_z + k
          = i * g.size_y * g.size_z + j * g.size_z + k := by ring
        _ = i' * g.size_y * g.size_z + j' * g.size_z + k' := heq
        _ = (i' * g.size_y + j') * g.size_z + k' := by ring
    obtain ⟨hab2, hkk⟩ := mixed_radix_inj hk hk' heq2
    obtain ⟨hii, hjj⟩ := mixed_radix_inj hj hj' hab2
    exact ⟨hii, hjj, hkk⟩

/-- Two-by-one-by-two grid used as the C8 witness. -/
noncomputable def gw2 : Grid :=
  { grid := [V3.zero, V3.zero, V3.zero, V3.zero]
    size_x := 2
    size_y := 1
    size_z := 2
    bounds := { pos := V3.zero, dir := ⟨2, 2, 2⟩ } }

theorem C8_grid_index_bijection_witness :
    gw2.linear_index 1 0 1 < 2 * 1 * 2 ∧
    gw2.get_positions.getD (gw2.linear_index 1 0 1) (0, 0, 0, 0)
      = gw2.cell_position 1 0 1 :=
  (C8_grid_index_bijection gw2).2.1 1 0 1 (by norm_num [gw2]) (by norm_num [gw2])
    (by norm_num [gw2])

/-! ## Claim C10: selection indices are increasing and in bounds -/

theorem pairwise_enumFrom {α : Type} :
    ∀ (l : List α) (n : ℕ), (l.enumFrom n).Pairwise fun a b => a.1 < b.1 := by
  intro l
  induction l with
  | nil => intro n; simp
  | cons a l ih =>
    intro n
    rw [List.enumFrom_cons]
    refine List.Pairwise.cons ?_ (ih (n + 1))
    intro b hb
    have h2 := List.mem_enumFrom hb
    omega

/-- Mapping `Prod.fst` over a filtered enumeration yields a strictly
increasing list of indices below the length. -/
theorem filter_enum_spec {α : Type} (l : List α) (f : ℕ × α → Bool) :
    ((l.enum.filter f).map Prod.fst).Pairwise (· < ·) ∧
    ∀ ix ∈ (l.enum.filter f).map Prod.fst, ix < l.length := by
  constructor
  · rw [List.pairwise_map]
    exact (pairwise_enumFrom l 0).filter f
  · intro ix hmem
    simp only [List.mem_map, List.mem_filter] at hmem
    obtain ⟨p, ⟨hp, _⟩, hfst⟩ := hmem
    have h2 := List.mem_enumFrom hp
    omega

/-- C10: the index list returned by `get_indices` (and likewise the one
captured by `mouse_down`) is strictly increasing, duplicate-free, and all
indices are below the cell count `nx*ny*nz`; consequently the grid and
snapshot accesses of `mouse_moved` at those indices are in bounds. -/
theorem C10_selection_indices_safe (g : Grid) (c0 : V3) (r : ℝ) (cur : Cursor)
    (hlen : g.grid.length = g.size_x * g.size_y * g.size_z) :
    (g.get_indices c0 r).Pairwise (· < ·) ∧
    (g.get_indices c0 r).Nodup ∧
    (∀ ix ∈ g.get_indices c0 r, ix < g.size_x * g.size_y * g.size_z) ∧
    (∀ ix ∈ (cur.mouse_down g).modify_vector_indices,
      ix < g.grid.length ∧ ix < g.get_instances.length) := by
  have hinstlen : g.get_instances.length = g.size_x * g.size_y * g.size_z := by
    unfold Grid.get_instances
    rw [List.length_map, List.length_zip, Grid.get_positions_length, hlen,
      Nat.min_self]
  have hpair := filter_enum_spec g.get_instances
    fun p => V3.distLt p.2.1 c0 r
  have hpair2 := filter_enum_spec g.get_instances
    fun p => V3.distLt cur.pos p.2.1 cur.edit_mode.falloff_dist
  refine ⟨hpair.1, ?_, ?_, ?_⟩
  · exact (hpair.1).imp Nat.ne_of_lt
  · intro ix hmem
    have := hpair.2 ix hmem
    rwa [hinstlen] at this
  · intro ix hmem
    have hb := hpair2.2 ix hmem
    rw [hinstlen] at hb
    rw [hlen]
    exact ⟨hb, by rwa [hinstlen]⟩

theorem C10_selection_indices_safe_witness :
    (gw.get_indices V3.zero 1).Pairwise (· < ·) ∧
    (gw.get_indices V3.zero 1).Nodup ∧
    (∀ ix ∈ gw.get_indices V3.zero 1, ix < gw.size_x * gw.size_y * gw.size_z) ∧
    (∀ ix ∈ (Cursor.new.mouse_down gw).modify_vector_indices,
      ix < gw.grid.length ∧ ix < gw.get_instances.length) :=
  C10_selection_indices_safe gw V3.zero 1 Cursor.new (by simp [gw])

end Particles
